import Mathlib

/-!
Verification of the snapshot-analysis core of `src/app.py` (an eCFR
snapshot analyzer).  Strings are modelled as lists of character codes
(`List Nat`); Python string operations (`lower`, `split`, `strip`,
`count`, `re.findall`) are embedded on that representation, restricted
to the ASCII/latin-1 fragment that the analyzed regular expressions and
agency codes actually touch.  Python dictionaries are modelled as
insertion-ordered association lists, matching CPython's guaranteed dict
ordering; the one iteration whose order CPython does not fix (the set
union in `compare_two_snapshots`) is modelled in first-occurrence order
and only order-insensitive facts are proved about it.
-/

namespace EcfrApp

/-- Character codes of a Lean string literal, used to write concrete inputs. -/
def strCodes (s : String) : List Nat :=
  s.toList.map (fun c => c.toNat)

/-- ASCII letter test, the character class of the regex `[a-zA-Z]`. -/
def isAlphaNat (c : Nat) : Bool :=
  (65 ≤ c && c ≤ 90) || (97 ≤ c && c ≤ 122)

/-- Python `str.lower` on one character (ASCII fragment). -/
def lowerNat (c : Nat) : Nat :=
  if 65 ≤ c ∧ c ≤ 90 then c + 32 else c

/-- Python `str.lower` on a string (ASCII fragment). -/
def lowerL (s : List Nat) : List Nat :=
  s.map lowerNat

/-- Worker for maximal-run extraction: `acc` holds the (reversed) run of
`p`-characters currently being read. -/
def runsAux (p : Nat → Bool) : List Nat → List Nat → List (List Nat)
  | [], acc => if acc = [] then [] else [acc.reverse]
  | c :: cs, acc =>
    if p c then runsAux p cs (c :: acc)
    else if acc = [] then runsAux p cs []
    else acc.reverse :: runsAux p cs []

/-- Maximal runs of characters satisfying `p`, in order.  With
`p = isAlphaNat` this is `re.findall(r"[a-zA-Z]+", s)`; with
`p = fun c => !(isSpaceNat c)` it is Python `str.split()`. -/
def runsP (p : Nat → Bool) (s : List Nat) : List (List Nat) :=
  runsAux p s []

/-- The regex extraction `re.findall(r"[a-zA-Z]+", s)` from `get_top_words`. -/
def tokensAlpha (s : List Nat) : List (List Nat) :=
  runsP isAlphaNat s

/-- Python `str.isspace` on the latin-1 fragment, the separator class of
`str.split()` with no argument. -/
def isSpaceNat (c : Nat) : Bool :=
  c == 32 || (9 ≤ c && c ≤ 13) || (28 ≤ c && c ≤ 31) || c == 133 || c == 160

/-- Python `text.split()`: maximal runs of non-whitespace characters. -/
def pySplit (s : List Nat) : List (List Nat) :=
  runsP (fun c => !(isSpaceNat c)) s

/-- Python `len(text.split())`, the word count of `analyze_ecfr_text`. -/
def word_count (s : List Nat) : Nat :=
  (pySplit s).length

/-- Test `startsWithL s pat`: whether `pat` is an initial segment of `s`. -/
def startsWithL : List Nat → List Nat → Bool
  | _, [] => true
  | [], _ :: _ => false
  | c :: s, q :: qs => c == q && startsWithL s qs

/-- Scanner for non-overlapping substring counting: `skip` characters are still
to be consumed from the previous match before matching may resume. -/
def countSubGo (s : List Nat) (pat : List Nat) (skip : Nat) : Nat :=
  match s, skip with
  | [], _ => 0
  | c :: rest, 0 =>
    if startsWithL (c :: rest) pat then 1 + countSubGo rest pat (pat.length - 1)
    else countSubGo rest pat 0
  | _ :: rest, k + 1 => countSubGo rest pat k

/-- Python `s.count(pat)`: non-overlapping occurrences, scanning left to right
and skipping past each match; an empty pattern matches at every gap. -/
def countSub (s pat : List Nat) : Nat :=
  if pat = [] then s.length + 1 else countSubGo s pat 0

/-- The hardcoded agency vocabulary `agencies_to_check` of `analyze_ecfr_text`. -/
def agenciesToCheck : List (List Nat) :=
  [strCodes "NCPC", strCodes "OMB", strCodes "OPM", strCodes "NARA", strCodes "CIO"]

/-- The dictionary `agency_counts` built by `analyze_ecfr_text`: the loop writes
each distinct agency code once, in list order, so it is the association list
pairing each code with its case-sensitive substring count in the text. -/
def agencyCounts (text : List Nat) : List (List Nat × Nat) :=
  agenciesToCheck.map (fun a => (a, countSub text a))

/-- The minimal stopword set of `get_top_words`. -/
def stopwordsL : List (List Nat) :=
  [strCodes "the", strCodes "and", strCodes "of", strCodes "to", strCodes "in",
   strCodes "a", strCodes "for", strCodes "on", strCodes "is", strCodes "that",
   strCodes "with", strCodes "by", strCodes "at", strCodes "an", strCodes "be",
   strCodes "are", strCodes "as", strCodes "or", strCodes "this"]

/-- The list-comprehension filter of `get_top_words`:
`t not in stopwords and len(t) > 1`. -/
def keepTok (t : List Nat) : Bool :=
  decide (¬ t ∈ stopwordsL) && decide (1 < t.length)

/-- One step of `collections.Counter` construction: increment the entry of `w`
in place, or append a fresh entry `(w, 1)` at the end. -/
def bump (w : List Nat) : List (List Nat × Nat) → List (List Nat × Nat)
  | [] => [(w, 1)]
  | e :: rest => if e.1 = w then (e.1, e.2 + 1) :: rest else e :: bump w rest

/-- Python `collections.Counter(ws)` as an insertion-ordered association list: keys
appear in first-occurrence order with their multiplicities. -/
def countList (ws : List (List Nat)) : List (List Nat × Nat) :=
  ws.foldl (fun acc w => bump w acc) []

/-- Stable insertion into a count-descending list: the new entry goes after
every entry with a strictly larger count, hence after all earlier-inserted
entries of equal count. -/
def insertDesc (e : List Nat × Nat) : List (List Nat × Nat) → List (List Nat × Nat)
  | [] => [e]
  | q :: qs => if e.2 < q.2 then q :: insertDesc e qs else e :: q :: qs

/-- Stable sort by descending count, the ordering of
`sorted(items, key=itemgetter(1), reverse=True)` that
`Counter.most_common` is specified to produce. -/
def sortDesc : List (List Nat × Nat) → List (List Nat × Nat)
  | [] => []
  | e :: es => insertDesc e (sortDesc es)

/-- Python `Counter.most_common(n)`: the `n` largest entries by count, ties kept in
insertion (= first-occurrence) order. -/
def mostCommon (n : Nat) (l : List (List Nat × Nat)) : List (List Nat × Nat) :=
  (sortDesc l).take n

/-- Function `get_top_words(text, n)` from `src/app.py`: lowercase the text, extract the
runs of `[a-zA-Z]+`, drop stopwords and one-letter tokens, count, and take the
`n` most common. -/
def get_top_words (text : List Nat) (n : Nat := 10) : List (List Nat × Nat) :=
  mostCommon n (countList ((tokensAlpha (lowerL text)).filter keepTok))

/-- The record returned by `analyze_ecfr_text`. -/
structure AnalysisRes where
  word_count : Nat
  agencies : List (List Nat × Nat)
  top_words : List (List Nat × Nat)
  deriving DecidableEq, Repr

/-- Function `analyze_ecfr_text(text)` from `src/app.py`. -/
def analyze_ecfr_text (text : List Nat) : AnalysisRes :=
  { word_count := word_count text
    agencies := agencyCounts text
    top_words := get_top_words text 10 }

/-- First-occurrence deduplication of the tokens already seen; used to state
the insertion order of `countList` and to model the key set
`set(a) | set(b)` of `compare_two_snapshots`. -/
def dedupKeys : List (List Nat) → List (List Nat)
  | [] => []
  | k :: ks => k :: (dedupKeys ks).filter (fun q => decide (q ≠ k))

/-- Association-list lookup, Python `d[k]` / `d.get(k)`. -/
def lookupKey {α : Type} (k : List Nat) : List (List Nat × α) → Option α
  | [] => none
  | e :: rest => if e.1 = k then some e.2 else lookupKey k rest

/-- Python `d.get(k, 0)`. -/
def getCount (d : List (List Nat × Nat)) (k : List Nat) : Nat :=
  match lookupKey k d with
  | some v => v
  | none => 0

/-- Index of the first occurrence of `x` in a token stream (length of the
stream when absent). -/
def firstIdx (x : List Nat) : List (List Nat) → Nat
  | [] => 0
  | w :: ws => if w = x then 0 else firstIdx x ws + 1

/-- A computed snapshot: `{"date": ..., "title": ..., "analysis": ...}`. -/
structure Snapshot where
  date : List Nat
  title : List Nat
  analysis : AnalysisRes
  deriving DecidableEq, Repr

/-- The comparison dictionary built by `compare_two_snapshots`. -/
structure CompareRes where
  word_count_change : Int
  agencies_diff : List (List Nat × Int)
  deriving DecidableEq, Repr

/-- Function `compare_two_snapshots(a, b)` from `src/app.py`.  The Python loop ranges
over the set union of both agency key sets, whose iteration order CPython
leaves unspecified; it is modelled here in first-occurrence order of
`keys(a) ++ keys(b)`.  Only lookup-level (order-insensitive) facts are proved
about `agencies_diff`. -/
def compare_two_snapshots (a b : Snapshot) : CompareRes :=
  { word_count_change :=
      (b.analysis.word_count : Int) - (a.analysis.word_count : Int)
    agencies_diff :=
      (dedupKeys (a.analysis.agencies.map Prod.fst ++ b.analysis.agencies.map Prod.fst)).map
        (fun ag => (ag, (getCount b.analysis.agencies ag : Int) -
                        (getCount a.analysis.agencies ag : Int))) }

/-- Python `str.strip()` (latin-1 fragment): drop leading and trailing
whitespace. -/
def stripWs (s : List Nat) : List Nat :=
  ((s.dropWhile isSpaceNat).reverse.dropWhile isSpaceNat).reverse

/-- Worker for `keywords_param.split(",")`: split on commas, keeping empty pieces. -/
def splitCommaAux : List Nat → List Nat → List (List Nat)
  | [], acc => [acc.reverse]
  | c :: cs, acc =>
    if c = 44 then acc.reverse :: splitCommaAux cs []
    else splitCommaAux cs (c :: acc)

/-- Python `s.split(",")`. -/
def splitComma (s : List Nat) : List (List Nat) :=
  splitCommaAux s []

/-- The keyword list of the `keyword_search` route:
`[k.strip() for k in keywords_param.split(",") if k.strip()]`. -/
def keywordsOf (param : List Nat) : List (List Nat) :=
  ((splitComma param).map stripWs).filter (fun k => decide (k ≠ []))

/-- Python dict assignment `d[k] = v`: update the existing entry in place or
append a fresh one at the end. -/
def dictInsert (k : List Nat) (v : Nat) : List (List Nat × Nat) → List (List Nat × Nat)
  | [] => [(k, v)]
  | e :: rest => if e.1 = k then (k, v) :: rest else e :: dictInsert k v rest

/-- The `frequencies` dictionary of the `keyword_search` route: for each
keyword `kw` (in list order) set `frequencies[kw] = text_lower.count(kw.lower())`
where `text_lower` is the lowercased extracted text. -/
def keywordFreqs (text : List Nat) (param : List Nat) : List (List Nat × Nat) :=
  (keywordsOf param).foldl
    (fun d kw => dictInsert kw (countSub (lowerL text) (lowerL kw)) d) []

/-- eCFR XML, as seen by `lxml`: an element has leading text (`elem.text`,
the character data before its first child; `[]` models both `None` and the
empty string, which Python's truthiness check treats alike), a list of child
elements, and tail text (`elem.tail`, the character data between the
element's end tag and the next sibling). -/
inductive XmlNode where
  | node (text : List Nat) (children : List XmlNode) (tail : List Nat)

/-- Python `" ".join(fragments)`. -/
def joinSpace : List (List Nat) → List Nat
  | [] => []
  | f :: fs =>
    match fs with
    | [] => f
    | _ :: _ => f ++ 32 :: joinSpace fs

mutual

/-- The fragment collection of `parse_ecfr_xml`: `root.iter()` visits every
element in document (pre)order and appends `elem.text.strip()` whenever
`elem.text` is truthy.  `elem.tail` is never read. -/
def fragOne : XmlNode → List (List Nat)
  | .node text children _ =>
    (if text = [] then [] else [stripWs text]) ++ fragList children

/-- Fragments of a forest of siblings, in document order. -/
def fragList : List XmlNode → List (List Nat)
  | [] => []
  | c :: cs => fragOne c ++ fragList cs

end

/-- Function `parse_ecfr_xml` from `src/app.py`, applied to the already-parsed tree. -/
def parse_ecfr_xml (root : XmlNode) : List Nat :=
  joinSpace (fragOne root)

mutual

/-- Replace every tail text in the tree by the empty string. -/
def eraseTailsOne : XmlNode → XmlNode
  | .node text children _ => .node text (eraseTailsList children) []

/-- Map `eraseTailsOne` over a forest. -/
def eraseTailsList : List XmlNode → List XmlNode
  | [] => []
  | c :: cs => eraseTailsOne c :: eraseTailsList cs

end

/-- Error taxonomy of the pipeline: provider failures (`requests` exceptions
and the `ValueError` of `fetch_latest_snapshot_date`) and markup failures
(`lxml` parse errors), each carrying a human-readable message. -/
inductive PipeErr where
  | fetchErr : List Nat → PipeErr
  | parseErr : List Nat → PipeErr
  deriving DecidableEq, Repr

/-- One version entry of the eCFR versions endpoint; only its `date` field is
read by the code. -/
structure VersionEntry where
  date : List Nat
  deriving DecidableEq, Repr

/-- Function `fetch_latest_snapshot_date` from `src/app.py`, applied to the decoded
version list returned by the provider: raise on an empty list, otherwise
return the `date` field of the first element (treated as newest). -/
def fetch_latest_snapshot_date (data : List VersionEntry) : Except PipeErr (List Nat) :=
  match data with
  | [] => .error (.fetchErr (strCodes "No version data found for this title."))
  | e :: _ => .ok e.date

/-- The `/analyze` route body (also the shape of `/latest_analyze`): the
external calls are passed in as their results — `fetchRes` for
`fetch_ecfr_xml` (which may raise) and `parseRes` for `etree.fromstring`
(which may raise); a successful parse yields the element tree, which is then
flattened and analyzed by the (total) repository code.  Returns the new value
of the module-global `analysis_result` slot together with the route's
outcome. -/
def analyzeRoute (fetchRes : Except PipeErr (List Nat))
    (parseRes : List Nat → Except PipeErr XmlNode)
    (store : Option Snapshot) (dateStr titleNum : List Nat) :
    Option Snapshot × Except PipeErr Snapshot :=
  match fetchRes with
  | .error e => (store, .error e)
  | .ok xml =>
    match parseRes xml with
    | .error e => (store, .error e)
    | .ok root =>
      let snap : Snapshot :=
        { date := dateStr, title := titleNum
          analysis := analyze_ecfr_text (parse_ecfr_xml root) }
      (some snap, .ok snap)

/-! ### Helper lemmas about run extraction -/

/-- A character failing `p` cuts the run extraction into two independent halves. -/
theorem runsAux_append_break (p : Nat → Bool) (c : Nat) (hc : p c = false) :
    ∀ (xs ys acc : List Nat),
      runsAux p (xs ++ c :: ys) acc = runsAux p xs acc ++ runsAux p ys [] := by
  intro xs
  induction xs with
  | nil =>
    intro ys acc
    simp only [List.nil_append, runsAux, hc]
    by_cases hacc : acc = []
    · simp [runsAux, hacc]
    · simp [runsAux, hacc]
  | cons x xs ih =>
    intro ys acc
    simp only [List.cons_append, runsAux]
    by_cases hx : p x
    · simp only [hx, if_true, List.append_eq, ih]
    · simp only [hx, if_false, Bool.false_eq_true, List.append_eq]
      by_cases hacc : acc = []
      · simp [hacc, ih]
      · simp [hacc, ih]

/-- Splitting form of `runsAux_append_break` for `runsP`. -/
theorem runsP_append_break (p : Nat → Bool) (c : Nat) (hc : p c = false)
    (xs ys : List Nat) :
    runsP p (xs ++ c :: ys) = runsP p xs ++ runsP p ys := by
  simp [runsP, runsAux_append_break p c hc]

/-- A nonempty string all of whose characters satisfy `p` is extracted as a
single run (prefixed by the pending accumulator). -/
theorem runsAux_all (p : Nat → Bool) :
    ∀ (xs acc : List Nat), (∀ c ∈ xs, p c = true) → (acc ≠ [] ∨ xs ≠ []) →
      runsAux p xs acc = [acc.reverse ++ xs] := by
  intro xs
  induction xs with
  | nil =>
    intro acc _ hne
    have hacc : acc ≠ [] := by
      rcases hne with h | h
      · exact h
      · exact absurd rfl h
    simp [runsAux, hacc]
  | cons x xs ih =>
    intro acc hall _
    have hx : p x = true := hall x (List.mem_cons_self x xs)
    have hall' : ∀ c ∈ xs, p c = true := fun c hc => hall c (List.mem_cons_of_mem x hc)
    simp only [runsAux, hx, if_true]
    rw [ih (x :: acc) hall' (Or.inl (by simp))]
    simp

/-- A nonempty all-`p` string is a single maximal run. -/
theorem runsP_all (p : Nat → Bool) (xs : List Nat)
    (hall : ∀ c ∈ xs, p c = true) (hne : xs ≠ []) :
    runsP p xs = [xs] := by
  simpa [runsP] using runsAux_all p xs [] hall (Or.inr hne)

/-- Every extracted run is nonempty, all its characters satisfy `p`, and every
character comes from the input (or the pending accumulator). -/
theorem mem_runsAux (p : Nat → Bool) :
    ∀ (l acc t : List Nat), (∀ c ∈ acc, p c = true) → t ∈ runsAux p l acc →
      t ≠ [] ∧ ∀ c ∈ t, p c = true ∧ (c ∈ l ∨ c ∈ acc) := by
  intro l
  induction l with
  | nil =>
    intro acc t hacc ht
    by_cases h : acc = []
    · simp [runsAux, h] at ht
    · simp only [runsAux, h, if_false] at ht
      have ht' : t = acc.reverse := by simpa using ht
      subst ht'
      refine ⟨by simpa using h, ?_⟩
      intro c hc
      have hca : c ∈ acc := by simpa using hc
      exact ⟨hacc c hca, Or.inr hca⟩
  | cons x l ih =>
    intro acc t hacc ht
    simp only [runsAux] at ht
    by_cases hx : p x
    · simp only [hx, if_true] at ht
      have hacc' : ∀ c ∈ x :: acc, p c = true := by
        intro c hc
        rcases List.mem_cons.mp hc with h | h
        · subst h; exact hx
        · exact hacc c h
      obtain ⟨hne, hmem⟩ := ih (x :: acc) t hacc' ht
      refine ⟨hne, fun c hc => ?_⟩
      obtain ⟨hp, hor⟩ := hmem c hc
      refine ⟨hp, ?_⟩
      rcases hor with h | h
      · exact Or.inl (List.mem_cons_of_mem x h)
      · rcases List.mem_cons.mp h with h' | h'
        · exact Or.inl (by simp [h'])
        · exact Or.inr h'
    · simp only [hx, if_false, Bool.false_eq_true] at ht
      have hnil : ∀ u, u ∈ runsAux p l [] →
          u ≠ [] ∧ ∀ c ∈ u, p c = true ∧ (c ∈ x :: l ∨ c ∈ acc) := by
        intro u hu
        obtain ⟨hne, hmem⟩ := ih [] u (by simp) hu
        refine ⟨hne, fun c hc => ?_⟩
        obtain ⟨hp, hor⟩ := hmem c hc
        rcases hor with h | h
        · exact ⟨hp, Or.inl (List.mem_cons_of_mem x h)⟩
        · simp at h
      by_cases h : acc = []
      · simp only [h, if_true] at ht
        exact hnil t ht
      · simp only [h, if_false] at ht
        rcases List.mem_cons.mp ht with h' | h'
        · subst h'
          refine ⟨by simpa using h, ?_⟩
          intro c hc
          have hca : c ∈ acc := by simpa using hc
          exact ⟨hacc c hca, Or.inr hca⟩
        · exact hnil t h'

/-- Specialization to `runsP`: every run is nonempty, all-`p`, drawn from the input. -/
theorem mem_runsP (p : Nat → Bool) (s t : List Nat) (ht : t ∈ runsP p s) :
    t ≠ [] ∧ ∀ c ∈ t, p c = true ∧ c ∈ s := by
  obtain ⟨hne, hmem⟩ := mem_runsAux p s [] t (by simp) ht
  refine ⟨hne, fun c hc => ?_⟩
  obtain ⟨hp, hor⟩ := hmem c hc
  rcases hor with h | h
  · exact ⟨hp, h⟩
  · simp at h

/-! ### Helper lemmas about dictionaries -/

/-- Lookup after a dict assignment. -/
theorem lookupKey_dictInsert (k q : List Nat) (v : Nat) :
    ∀ d, lookupKey k (dictInsert q v d) =
      if q = k then some v else lookupKey k d := by
  intro d
  induction d with
  | nil =>
    by_cases h : q = k
    · simp [dictInsert, lookupKey, h]
    · simp [dictInsert, lookupKey, h]
  | cons e rest ih =>
    by_cases he : e.1 = q
    · by_cases h : q = k
      · simp [dictInsert, lookupKey, he, h]
      · have hek : ¬ e.1 = k := by rw [he]; exact h
        simp [dictInsert, lookupKey, he, h, hek]
    · simp only [dictInsert, he, if_false]
      by_cases hk : e.1 = k
      · have hqk : ¬ q = k := by rw [← hk]; exact fun h => he h.symm
        simp [lookupKey, hk, hqk]
      · simp [lookupKey, hk, ih]

/-- Lookup in a dict built by one assignment per keyword, where the stored
value is a function of the keyword alone: every listed keyword has its entry,
everything else is looked up in the initial dict. -/
theorem lookupKey_keywordFold (f : List Nat → Nat) :
    ∀ (ks : List (List Nat)) (d : List (List Nat × Nat)) (k : List Nat),
      lookupKey k (ks.foldl (fun d kw => dictInsert kw (f kw) d) d) =
        if k ∈ ks then some (f k) else lookupKey k d := by
  intro ks
  induction ks with
  | nil => intro d k; simp
  | cons kw ks ih =>
    intro d k
    simp only [List.foldl_cons, ih, lookupKey_dictInsert]
    by_cases hks : k ∈ ks
    · simp [hks, List.mem_cons]
    · by_cases hkw : kw = k
      · subst hkw
        simp [hks]
      · have hnk : k ≠ kw := fun hh => hkw hh.symm
        have hmem : ¬ k ∈ kw :: ks := by
          simp only [List.mem_cons]
          push_neg
          exact ⟨hnk, hks⟩
        simp [hks, hkw, hmem]

/-- Lookup in a dict built as a `map` over a (not necessarily distinct) key
list, where the value is a function of the key. -/
theorem lookupKey_mapKeys {α : Type} (f : List Nat → α) :
    ∀ (ks : List (List Nat)) (k : List Nat),
      lookupKey k (ks.map (fun q => (q, f q))) =
        if k ∈ ks then some (f k) else none := by
  intro ks
  induction ks with
  | nil => intro k; simp [lookupKey]
  | cons q ks ih =>
    intro k
    by_cases h : q = k
    · simp [lookupKey, h]
    · simp only [List.map_cons, lookupKey, h, if_false]
      by_cases hk : k ∈ ks
      · simp [hk, ih, List.mem_cons]
      · have hnk : k ≠ q := fun hh => h hh.symm
        have hmem : ¬ k ∈ q :: ks := by
          simp only [List.mem_cons]
          push_neg
          exact ⟨hnk, hk⟩
        simp [hk, ih, hmem]

/-- Membership is invariant under first-occurrence deduplication. -/
theorem mem_dedupKeys (k : List Nat) :
    ∀ ks, k ∈ dedupKeys ks ↔ k ∈ ks := by
  intro ks
  induction ks with
  | nil => simp [dedupKeys]
  | cons q ks ih =>
    simp only [dedupKeys, List.mem_cons, List.mem_filter, decide_eq_true_eq]
    constructor
    · rintro (h | ⟨h, _⟩)
      · exact Or.inl h
      · exact Or.inr (ih.mp h)
    · rintro (h | h)
      · exact Or.inl h
      · by_cases hq : k = q
        · exact Or.inl hq
        · exact Or.inr ⟨ih.mpr h, hq⟩

/-! ### Helper lemmas about `Counter` construction and `most_common` -/

/-- Keys after one `Counter` increment. -/
theorem map_fst_bump (w : List Nat) :
    ∀ acc, (bump w acc).map Prod.fst =
      if w ∈ acc.map Prod.fst then acc.map Prod.fst else acc.map Prod.fst ++ [w] := by
  intro acc
  induction acc with
  | nil => simp [bump]
  | cons e rest ih =>
    by_cases he : e.1 = w
    · simp [bump, he]
    · have hne : ¬ w = e.1 := fun h => he h.symm
      simp only [bump, he, if_false, List.map_cons, List.mem_cons, hne, false_or]
      by_cases hw : w ∈ rest.map Prod.fst
      · simp [hw, ih]
      · simp [hw, ih]

/-- The key list of a `Counter` built by folding, in terms of the
seen-so-far fold on keys alone. -/
theorem map_fst_countList_fold :
    ∀ (ws : List (List Nat)) (acc : List (List Nat × Nat)),
      (ws.foldl (fun a w => bump w a) acc).map Prod.fst =
        ws.foldl (fun ks w => if w ∈ ks then ks else ks ++ [w]) (acc.map Prod.fst) := by
  intro ws
  induction ws with
  | nil => intro acc; simp
  | cons w ws ih =>
    intro acc
    simp only [List.foldl_cons, ih, map_fst_bump]

/-- The seen-so-far fold on keys computes first-occurrence deduplication. -/
theorem foldl_seen_eq_dedupKeys :
    ∀ (ws ks0 : List (List Nat)),
      ws.foldl (fun ks w => if w ∈ ks then ks else ks ++ [w]) ks0 =
        ks0 ++ (dedupKeys ws).filter (fun q => decide (¬ q ∈ ks0)) := by
  intro ws
  induction ws with
  | nil => intro ks0; simp [dedupKeys]
  | cons w ws ih =>
    intro ks0
    simp only [List.foldl_cons, dedupKeys]
    by_cases hw : w ∈ ks0
    · rw [if_pos hw, ih ks0,
        List.filter_cons_of_neg (by simpa using hw), List.filter_filter]
      refine congrArg (fun t => ks0 ++ t) ?_
      refine (List.filter_congr ?_).symm
      intro q _
      by_cases hq : q = w
      · subst hq
        simp [hw]
      · simp [hq]
    · rw [if_neg hw, ih (ks0 ++ [w]),
        List.filter_cons_of_pos (by simpa using hw), List.filter_filter,
        List.append_assoc, List.singleton_append]
      refine congrArg (fun t => ks0 ++ t) ?_
      refine congrArg (fun t => w :: t) ?_
      refine List.filter_congr ?_
      intro q _
      by_cases hq : q = w
      · subst hq
        simp
      · simp [List.mem_append, hq]

/-- The keys of `countList ws` are the tokens of `ws` in first-occurrence
order. -/
theorem map_fst_countList (ws : List (List Nat)) :
    (countList ws).map Prod.fst = dedupKeys ws := by
  rw [countList, map_fst_countList_fold, foldl_seen_eq_dedupKeys]
  simp

/-- Membership passes through `insertDesc`. -/
theorem mem_insertDesc (e x : List Nat × Nat) :
    ∀ l, x ∈ insertDesc e l ↔ x = e ∨ x ∈ l := by
  intro l
  induction l with
  | nil =>
    show x ∈ [e] ↔ x = e ∨ x ∈ ([] : List (List Nat × Nat))
    simp
  | cons q qs ih =>
    by_cases h : e.2 < q.2
    · rw [show insertDesc e (q :: qs) = q :: insertDesc e qs from by
        simp [insertDesc, h]]
      rw [List.mem_cons, ih, List.mem_cons]
      tauto
    · rw [show insertDesc e (q :: qs) = e :: q :: qs from by
        simp [insertDesc, h]]
      rw [List.mem_cons, List.mem_cons]

/-- Membership passes through `sortDesc`. -/
theorem mem_sortDesc (x : List Nat × Nat) :
    ∀ l, x ∈ sortDesc l ↔ x ∈ l := by
  intro l
  induction l with
  | nil => exact Iff.rfl
  | cons e es ih =>
    show x ∈ insertDesc e (sortDesc es) ↔ x ∈ e :: es
    rw [mem_insertDesc, ih, List.mem_cons]

/-- Insertion via `insertDesc` preserves count-descending sortedness. -/
theorem sorted_insertDesc (e : List Nat × Nat) :
    ∀ l, l.Pairwise (fun a b => b.2 ≤ a.2) →
      (insertDesc e l).Pairwise (fun a b => b.2 ≤ a.2) := by
  intro l
  induction l with
  | nil =>
    intro _
    exact List.pairwise_singleton _ e
  | cons q qs ih =>
    intro hl
    obtain ⟨hq, hqs⟩ := List.pairwise_cons.mp hl
    by_cases h : e.2 < q.2
    · rw [show insertDesc e (q :: qs) = q :: insertDesc e qs from by
        simp [insertDesc, h]]
      refine List.pairwise_cons.mpr ⟨?_, ih hqs⟩
      intro x hx
      rcases (mem_insertDesc e x qs).mp hx with h' | h'
      · subst h'
        omega
      · exact hq x h'
    · rw [show insertDesc e (q :: qs) = e :: q :: qs from by
        simp [insertDesc, h]]
      refine List.pairwise_cons.mpr ⟨?_, hl⟩
      intro x hx
      rcases List.mem_cons.mp hx with h' | h'
      · subst h'
        omega
      · have := hq x h'
        omega

/-- Sorting via `sortDesc` yields descending counts. -/
theorem sorted_sortDesc :
    ∀ l, (sortDesc l).Pairwise (fun a b : List Nat × Nat => b.2 ≤ a.2) := by
  intro l
  induction l with
  | nil => exact List.Pairwise.nil
  | cons e es ih => exact sorted_insertDesc e (sortDesc es) ih

/-- Stability skeleton: inserting `e` into a count-sorted list `s` keeps any
pairwise relation `R`, provided `R` relates `e` correctly to smaller-or-equal
entries (which end up after it) and to strictly larger entries (which stay
before it). -/
theorem pairwise_insertDesc_rel (R : (List Nat × Nat) → (List Nat × Nat) → Prop)
    (e : List Nat × Nat) :
    ∀ s, s.Pairwise R → s.Pairwise (fun a b => b.2 ≤ a.2) →
      (∀ x ∈ s, x.2 ≤ e.2 → R e x) → (∀ x ∈ s, e.2 < x.2 → R x e) →
      (insertDesc e s).Pairwise R := by
  intro s
  induction s with
  | nil =>
    intro _ _ _ _
    exact List.pairwise_singleton _ e
  | cons q qs ih =>
    intro hR hsort hp hgt
    obtain ⟨hRq, hRqs⟩ := List.pairwise_cons.mp hR
    obtain ⟨hsq, hsqs⟩ := List.pairwise_cons.mp hsort
    by_cases h : e.2 < q.2
    · rw [show insertDesc e (q :: qs) = q :: insertDesc e qs from by
        simp [insertDesc, h]]
      refine List.pairwise_cons.mpr ⟨?_, ?_⟩
      · intro x hx
        rcases (mem_insertDesc e x qs).mp hx with h' | h'
        · subst h'
          exact hgt q (List.mem_cons_self q qs) h
        · exact hRq x h'
      · exact ih hRqs hsqs
          (fun x hx hle => hp x (List.mem_cons_of_mem q hx) hle)
          (fun x hx hlt => hgt x (List.mem_cons_of_mem q hx) hlt)
    · rw [show insertDesc e (q :: qs) = e :: q :: qs from by
        simp [insertDesc, h]]
      refine List.pairwise_cons.mpr ⟨?_, hR⟩
      intro x hx
      rcases List.mem_cons.mp hx with h' | h'
      · subst h'
        exact hp x (List.mem_cons_self x qs) (by omega)
      · exact hp x (List.mem_cons_of_mem q h') (le_trans (hsq x h') (by omega))

/-- Stability of `sortDesc`: in the sorted output, an entry precedes another
either because its count is strictly larger, or because the counts are equal
and its key occurs first in the key list of the input (ties keep input
order). -/
theorem pairwise_sortDesc_stable :
    ∀ l : List (List Nat × Nat),
      (sortDesc l).Pairwise (fun a b =>
        b.2 < a.2 ∨ (b.2 = a.2 ∧ List.Sublist [a.1, b.1] (l.map Prod.fst))) := by
  intro l
  induction l with
  | nil => exact List.Pairwise.nil
  | cons e es ih =>
    show (insertDesc e (sortDesc es)).Pairwise _
    refine pairwise_insertDesc_rel _ e (sortDesc es) ?_ (sorted_sortDesc es) ?_ ?_
    · refine ih.imp ?_
      intro a b hab
      rcases hab with h | ⟨h1, h2⟩
      · exact Or.inl h
      · exact Or.inr ⟨h1, h2.trans (List.sublist_cons_self e.1 (es.map Prod.fst))⟩
    · intro x hx hle
      rcases lt_or_eq_of_le hle with h | h
      · exact Or.inl h
      · refine Or.inr ⟨h, ?_⟩
        have hxes : x ∈ es := (mem_sortDesc x es).mp hx
        have hmap : x.1 ∈ es.map Prod.fst := List.mem_map_of_mem Prod.fst hxes
        exact List.cons_sublist_cons.mpr (List.singleton_sublist.mpr hmap)
    · intro x _ hlt
      exact Or.inl hlt

/-- ASCII-letter characters of a lowercased string are lowercase letters. -/
theorem lower_alpha_lowercase (s : List Nat) (c : Nat)
    (hc : c ∈ lowerL s) (ha : isAlphaNat c = true) : 97 ≤ c ∧ c ≤ 122 := by
  obtain ⟨d, _, rfl⟩ := List.mem_map.mp hc
  simp only [isAlphaNat, Bool.or_eq_true, Bool.and_eq_true, decide_eq_true_eq] at ha
  unfold lowerNat at ha ⊢
  by_cases h : 65 ≤ d ∧ d ≤ 90
  · rw [if_pos h] at ha ⊢
    omega
  · rw [if_neg h] at ha ⊢
    omega

/-- If `x` occurs before `y` in the first-occurrence deduplication of the
`p`-filtered token stream, then the first occurrence of `x` in the full
stream precedes the first occurrence of `y`. -/
theorem sublist_dedup_filter_firstIdx (p : List Nat → Bool) (x y : List Nat) :
    ∀ ts : List (List Nat),
      List.Sublist [x, y] (dedupKeys (ts.filter p)) →
      firstIdx x ts < firstIdx y ts := by
  intro ts
  induction ts with
  | nil =>
    intro h
    simp only [List.filter_nil, dedupKeys] at h
    exact absurd (List.sublist_nil.mp h) (by simp)
  | cons w ts ih =>
    intro h
    by_cases hw : p w
    · rw [List.filter_cons_of_pos hw] at h
      rw [show dedupKeys (w :: ts.filter p) =
          w :: (dedupKeys (ts.filter p)).filter (fun q => decide (q ≠ w)) from rfl] at h
      cases h with
      | cons _a h' =>
        have hx : x ∈ (dedupKeys (ts.filter p)).filter (fun q => decide (q ≠ w)) :=
          h'.subset (by simp)
        have hy : y ∈ (dedupKeys (ts.filter p)).filter (fun q => decide (q ≠ w)) :=
          h'.subset (by simp)
        have hxw : ¬ w = x := by
          have := (List.mem_filter.mp hx).2
          simp only [decide_eq_true_eq] at this
          exact fun hh => this hh.symm
        have hyw : ¬ w = y := by
          have := (List.mem_filter.mp hy).2
          simp only [decide_eq_true_eq] at this
          exact fun hh => this hh.symm
        have hsub : List.Sublist [x, y] (dedupKeys (ts.filter p)) :=
          h'.trans (List.filter_sublist _)
        have hlt := ih hsub
        rw [firstIdx, firstIdx, if_neg hxw, if_neg hyw]
        omega
      | cons₂ _a h' =>
        have hy : y ∈ (dedupKeys (ts.filter p)).filter (fun q => decide (q ≠ x)) :=
          h'.subset (by simp)
        have hyw : ¬ x = y := by
          have := (List.mem_filter.mp hy).2
          simp only [decide_eq_true_eq] at this
          exact fun hh => this hh.symm
        rw [firstIdx, firstIdx, if_pos rfl, if_neg hyw]
        omega
    · rw [List.filter_cons_of_neg hw] at h
      have hxmem : x ∈ ts.filter p := by
        have hmem : x ∈ dedupKeys (ts.filter p) := h.subset (by simp)
        exact (mem_dedupKeys x _).mp hmem
      have hymem : y ∈ ts.filter p := by
        have hmem : y ∈ dedupKeys (ts.filter p) := h.subset (by simp)
        exact (mem_dedupKeys y _).mp hmem
      have hxw : ¬ w = x := by
        intro hh
        rw [hh] at hw
        exact hw (List.mem_filter.mp hxmem).2
      have hyw : ¬ w = y := by
        intro hh
        rw [hh] at hw
        exact hw (List.mem_filter.mp hymem).2
      have hlt := ih h
      rw [firstIdx, firstIdx, if_neg hxw, if_neg hyw]
      omega

/-! ### Claim theorems -/

/-- C1, counterexample: the claim says the input word `abc123def` contributes
no tokens to the top-words computation; in fact `get_top_words` splits it into
its alphabetic runs `abc` and `def`, so its output on that one-word text is
not empty. -/
theorem c1_counterexample :
    get_top_words (strCodes "abc123def") 10 =
        [(strCodes "abc", 1), (strCodes "def", 1)]
      ∧ ¬ get_top_words (strCodes "abc123def") 10 = [] := by
  decide

/-- C1, amended: the token stream of the top-words computation is obtained by
lowercasing the text and extracting maximal runs of ASCII letters; a word
containing digits or punctuation is split into its alphabetic runs (so
`abc123def` contributes the tokens `abc` and `def`), not excluded entirely:
(1) `get_top_words` counts exactly the stopword-filtered tokens
`tokensAlpha (lowerL text)`; (2) a non-letter character splits the token
extraction; (3) a nonempty all-letter string is one single token; (4) the
word `abc123def` yields exactly the tokens `abc` and `def`. -/
theorem c1_amended_tokens :
    (∀ (text : List Nat) (n : Nat), get_top_words text n =
        mostCommon n (countList ((tokensAlpha (lowerL text)).filter keepTok)))
    ∧ (∀ (xs ys : List Nat) (c : Nat), isAlphaNat c = false →
        tokensAlpha (xs ++ c :: ys) = tokensAlpha xs ++ tokensAlpha ys)
    ∧ (∀ xs : List Nat, (∀ c ∈ xs, isAlphaNat c = true) → xs ≠ [] →
        tokensAlpha xs = [xs])
    ∧ tokensAlpha (lowerL (strCodes "abc123def")) = [strCodes "abc", strCodes "def"] := by
  refine ⟨fun text n => rfl, ?_, ?_, by decide⟩
  · intro xs ys c hc
    exact runsP_append_break isAlphaNat c hc xs ys
  · intro xs hall hne
    exact runsP_all isAlphaNat xs hall hne

/-- C1 amended, witness: the splitting law applied to the concrete word
`a1b` (codes `[97, 49, 98]`), whose middle character is not a letter. -/
theorem c1_amended_witness :
    tokensAlpha [97, 49, 98] = tokensAlpha [97] ++ tokensAlpha [98] :=
  c1_amended_tokens.2.1 [97] [98] 49 (by decide)

/-- C3: `get_top_words text n` has length at most `n`; every entry's token is
a lowercase-letter-only string of length greater than one outside the
stopword set; counts are non-increasing along the list; and entries with
equal counts are ordered by the first occurrence of their token in the token
stream `tokensAlpha (lowerL text)`. -/
theorem c3_top_words_shape (text : List Nat) (n : Nat) :
    (get_top_words text n).length ≤ n
    ∧ (∀ e ∈ get_top_words text n,
        (∀ c ∈ e.1, 97 ≤ c ∧ c ≤ 122) ∧ 1 < e.1.length ∧ ¬ e.1 ∈ stopwordsL)
    ∧ (∀ i j : Fin (get_top_words text n).length, i < j →
        ((get_top_words text n).get j).2 ≤ ((get_top_words text n).get i).2)
    ∧ (∀ i j : Fin (get_top_words text n).length, i < j →
        ((get_top_words text n).get i).2 = ((get_top_words text n).get j).2 →
        firstIdx ((get_top_words text n).get i).1 (tokensAlpha (lowerL text)) <
          firstIdx ((get_top_words text n).get j).1 (tokensAlpha (lowerL text))) := by
  have hpair :
      (get_top_words text n).Pairwise (fun a b =>
        b.2 < a.2 ∨ (b.2 = a.2 ∧ List.Sublist [a.1, b.1]
          ((countList ((tokensAlpha (lowerL text)).filter keepTok)).map Prod.fst))) :=
    List.Pairwise.sublist (List.take_sublist n _)
      (pairwise_sortDesc_stable (countList ((tokensAlpha (lowerL text)).filter keepTok)))
  have hget := List.pairwise_iff_get.mp hpair
  refine ⟨?_, ?_, ?_, ?_⟩
  · show ((sortDesc _).take n).length ≤ n
    rw [List.length_take]
    omega
  · intro e he
    have hcl : e ∈ countList ((tokensAlpha (lowerL text)).filter keepTok) :=
      (mem_sortDesc e _).mp ((List.take_sublist n _).subset he)
    have hkey : e.1 ∈ (countList ((tokensAlpha (lowerL text)).filter keepTok)).map Prod.fst :=
      List.mem_map_of_mem Prod.fst hcl
    rw [map_fst_countList] at hkey
    have hfs : e.1 ∈ (tokensAlpha (lowerL text)).filter keepTok :=
      (mem_dedupKeys _ _).mp hkey
    obtain ⟨hts, hkeep⟩ := List.mem_filter.mp hfs
    have hkeep' : ¬ e.1 ∈ stopwordsL ∧ 1 < e.1.length := by
      simpa [keepTok] using hkeep
    obtain ⟨_, hchars⟩ := mem_runsP isAlphaNat (lowerL text) e.1 hts
    refine ⟨?_, hkeep'.2, hkeep'.1⟩
    intro c hc
    obtain ⟨halpha, hmem⟩ := hchars c hc
    exact lower_alpha_lowercase text c hmem halpha
  · intro i j hij
    rcases hget i j hij with h | ⟨h1, _⟩
    · omega
    · omega
  · intro i j hij heq
    rcases hget i j hij with h | ⟨_, hsub⟩
    · omega
    · rw [map_fst_countList] at hsub
      exact sublist_dedup_filter_firstIdx keepTok _ _ (tokensAlpha (lowerL text)) hsub

/-- C3, witness: on the text `cc dd` both tokens have count one, `get` at the
concrete indices 0 and 1 discharges the hypotheses, and the tie is resolved
by first occurrence. -/
theorem c3_witness :
    (get_top_words (strCodes "cc dd") 10).length ≤ 10
    ∧ firstIdx ((get_top_words (strCodes "cc dd") 10).get ⟨0, by decide⟩).1
          (tokensAlpha (lowerL (strCodes "cc dd"))) <
        firstIdx ((get_top_words (strCodes "cc dd") 10).get ⟨1, by decide⟩).1
          (tokensAlpha (lowerL (strCodes "cc dd"))) :=
  ⟨(c3_top_words_shape (strCodes "cc dd") 10).1,
   (c3_top_words_shape (strCodes "cc dd") 10).2.2.2
     ⟨0, by decide⟩ ⟨1, by decide⟩ (by decide) (by decide)⟩

/-- C8: the analyzer's word count is the number of whitespace-delimited
non-empty tokens of the raw text: (1) it is the length of `text.split()`;
(2) every token of the split is nonempty and whitespace-free; (3) a
whitespace character splits the text into two independent halves; (4) a
nonempty whitespace-free string is one single token (so no case or
punctuation normalization happens); (5) the example text
`The OMB reviewed OMB policy.` has word count 5. -/
theorem c8_word_count :
    (∀ t : List Nat, word_count t = (pySplit t).length)
    ∧ (∀ t tok : List Nat, tok ∈ pySplit t →
        tok ≠ [] ∧ ∀ c ∈ tok, isSpaceNat c = false)
    ∧ (∀ (xs ys : List Nat) (c : Nat), isSpaceNat c = true →
        pySplit (xs ++ c :: ys) = pySplit xs ++ pySplit ys)
    ∧ (∀ xs : List Nat, (∀ c ∈ xs, isSpaceNat c = false) → xs ≠ [] →
        pySplit xs = [xs])
    ∧ word_count (strCodes "The OMB reviewed OMB policy.") = 5 := by
  refine ⟨fun t => rfl, ?_, ?_, ?_, by decide⟩
  · intro t tok htok
    obtain ⟨hne, hchars⟩ := mem_runsP (fun c => !(isSpaceNat c)) t tok htok
    refine ⟨hne, fun c hc => ?_⟩
    have h := (hchars c hc).1
    simpa using h
  · intro xs ys c hc
    exact runsP_append_break (fun d => !(isSpaceNat d)) c (by simp [hc]) xs ys
  · intro xs hall hne
    exact runsP_all (fun d => !(isSpaceNat d)) xs (fun c hc => by simp [hall c hc]) hne

/-- C8, witness: the splitting law applied to `a b` (codes `[97, 32, 98]`),
whose middle character is a space, together with the resulting word count. -/
theorem c8_witness :
    pySplit [97, 32, 98] = pySplit [97] ++ pySplit [98]
    ∧ word_count [97, 32, 98] = 2 :=
  ⟨c8_word_count.2.2.1 [97] [98] 32 (by decide), by decide⟩

/-- C9: for every text and each code of the fixed agency vocabulary, the
analyzer's agency dictionary maps the code to its case-sensitive
non-overlapping substring count in the original-case text; on the example
text the counts are OMB = 2 and NCPC = 0, a code inside a longer token still
counts (`XOMBY`), and counting is non-overlapping (`aa` in `aaa`). -/
theorem c9_agency_counts :
    (∀ t c : List Nat, c ∈ agenciesToCheck →
        lookupKey c (agencyCounts t) = some (countSub t c))
    ∧ (analyze_ecfr_text (strCodes "The OMB reviewed OMB policy.")).agencies =
        [(strCodes "NCPC", 0), (strCodes "OMB", 2), (strCodes "OPM", 0),
         (strCodes "NARA", 0), (strCodes "CIO", 0)]
    ∧ lookupKey (strCodes "OMB") (agencyCounts (strCodes "XOMBY")) = some 1
    ∧ countSub (strCodes "aaa") (strCodes "aa") = 1 := by
  refine ⟨?_, by decide, by decide, by decide⟩
  intro t c hc
  rw [agencyCounts, lookupKey_mapKeys (fun a => countSub t a) agenciesToCheck c,
    if_pos hc]

/-- C9, witness: the lookup law applied to the agency code `OMB` and the
example text, with the count evaluated. -/
theorem c9_witness :
    lookupKey (strCodes "OMB")
        (agencyCounts (strCodes "The OMB reviewed OMB policy.")) =
      some (countSub (strCodes "The OMB reviewed OMB policy.") (strCodes "OMB"))
    ∧ countSub (strCodes "The OMB reviewed OMB policy.") (strCodes "OMB") = 2 :=
  ⟨c9_agency_counts.1 (strCodes "The OMB reviewed OMB policy.") (strCodes "OMB")
     (by decide), by decide⟩

/-- C5: keyword search counts non-overlapping substring occurrences
case-insensitively against the lowercased text: (1) every keyword of the
parsed keyword list is mapped to the count of its lowercasing in the
lowercased text; (2) keywords equal after lowercasing receive equal counts on
the same text; (3) `search("Privacy and privacy again", ["privacy"])` yields
exactly `{"privacy": 2}`; (4) the counting is non-overlapping (`aA` is found
once in `aaa`). -/
theorem c5_keyword_case_insensitive :
    (∀ text param kw : List Nat, kw ∈ keywordsOf param →
        lookupKey kw (keywordFreqs text param) =
          some (countSub (lowerL text) (lowerL kw)))
    ∧ (∀ text w1 w2 : List Nat, lowerL w1 = lowerL w2 →
        countSub (lowerL text) (lowerL w1) = countSub (lowerL text) (lowerL w2))
    ∧ keywordFreqs (strCodes "Privacy and privacy again") (strCodes "privacy") =
        [(strCodes "privacy", 2)]
    ∧ countSub (lowerL (strCodes "aaa")) (lowerL (strCodes "aA")) = 1 := by
  refine ⟨?_, ?_, by decide, by decide⟩
  · intro text param kw hkw
    rw [keywordFreqs,
      lookupKey_keywordFold (fun k => countSub (lowerL text) (lowerL k))
        (keywordsOf param) [] kw,
      if_pos hkw]
  · intro text w1 w2 h
    rw [h]

/-- C5, witness: the lookup law applied to the keyword `privacy` on the
example text, with the case-insensitive count evaluated to 2. -/
theorem c5_witness :
    lookupKey (strCodes "privacy")
        (keywordFreqs (strCodes "Privacy and privacy again") (strCodes "privacy")) =
      some (countSub (lowerL (strCodes "Privacy and privacy again"))
        (lowerL (strCodes "privacy")))
    ∧ countSub (lowerL (strCodes "Privacy and privacy again"))
        (lowerL (strCodes "privacy")) = 2 :=
  ⟨c5_keyword_case_insensitive.1 (strCodes "Privacy and privacy again")
     (strCodes "privacy") (strCodes "privacy") (by decide), by decide⟩

/-- C2: every keyword of the (trimmed, emptiness-filtered) keyword list gets
an entry in the result keyed by its literal original string, holding its
case-insensitive count; keys not in the list get no entry; duplicate
identical keywords stay in the keyword list and share their single literal
entry; and two keywords differing only by case yield two distinct entries,
counted independently. -/
theorem c2_keyword_duplicates :
    (∀ text param kw : List Nat, kw ∈ keywordsOf param →
        lookupKey kw (keywordFreqs text param) =
          some (countSub (lowerL text) (lowerL kw)))
    ∧ (∀ text param kw : List Nat, ¬ kw ∈ keywordsOf param →
        lookupKey kw (keywordFreqs text param) = none)
    ∧ keywordsOf (strCodes "abc, abc") = [strCodes "abc", strCodes "abc"]
    ∧ keywordFreqs (strCodes "ABC abc") (strCodes "abc, abc") =
        [(strCodes "abc", 2)]
    ∧ keywordFreqs (strCodes "ABC abc") (strCodes "ABC, abc") =
        [(strCodes "ABC", 2), (strCodes "abc", 2)] := by
  refine ⟨?_, ?_, by decide, by decide, by decide⟩
  · intro text param kw hkw
    rw [keywordFreqs,
      lookupKey_keywordFold (fun k => countSub (lowerL text) (lowerL k))
        (keywordsOf param) [] kw,
      if_pos hkw]
  · intro text param kw hkw
    rw [keywordFreqs,
      lookupKey_keywordFold (fun k => countSub (lowerL text) (lowerL k))
        (keywordsOf param) [] kw,
      if_neg hkw]
    rfl

/-- C2, witness: on the keyword parameter `ABC, abc`, both case variants get
their own literal entry in the result. -/
theorem c2_witness :
    lookupKey (strCodes "ABC") (keywordFreqs (strCodes "ABC abc") (strCodes "ABC, abc")) =
      some (countSub (lowerL (strCodes "ABC abc")) (lowerL (strCodes "ABC")))
    ∧ lookupKey (strCodes "abc") (keywordFreqs (strCodes "ABC abc") (strCodes "ABC, abc")) =
      some (countSub (lowerL (strCodes "ABC abc")) (lowerL (strCodes "abc"))) :=
  ⟨c2_keyword_duplicates.1 (strCodes "ABC abc") (strCodes "ABC, abc")
     (strCodes "ABC") (by decide),
   c2_keyword_duplicates.1 (strCodes "ABC abc") (strCodes "ABC, abc")
     (strCodes "abc") (by decide)⟩

/-- Unfolding lemma for the `agencies_diff` dictionary of
`compare_two_snapshots`. -/
theorem agencies_diff_eq (a b : Snapshot) :
    (compare_two_snapshots a b).agencies_diff =
      (dedupKeys (a.analysis.agencies.map Prod.fst ++
          b.analysis.agencies.map Prod.fst)).map
        (fun ag => (ag, (getCount b.analysis.agencies ag : Int) -
                        (getCount a.analysis.agencies ag : Int))) := rfl

/-- C4: `compare_two_snapshots` is field-by-field antisymmetric — the word
count delta negates, the agency-diff key sets agree, and each agency delta
negates — and comparing a snapshot with itself yields all-zero deltas. -/
theorem c4_compare_antisymmetric (a b : Snapshot) :
    (compare_two_snapshots a b).word_count_change =
        -((compare_two_snapshots b a).word_count_change)
    ∧ (∀ k : List Nat,
        (lookupKey k (compare_two_snapshots a b).agencies_diff).isSome =
          (lookupKey k (compare_two_snapshots b a).agencies_diff).isSome)
    ∧ (∀ (k : List Nat) (v : Int),
        lookupKey k (compare_two_snapshots a b).agencies_diff = some v →
        lookupKey k (compare_two_snapshots b a).agencies_diff = some (-v))
    ∧ (compare_two_snapshots a a).word_count_change = 0
    ∧ (∀ (k : List Nat) (v : Int),
        lookupKey k (compare_two_snapshots a a).agencies_diff = some v → v = 0) := by
  have hmem : ∀ (x y : Snapshot) (k : List Nat),
      k ∈ dedupKeys (x.analysis.agencies.map Prod.fst ++ y.analysis.agencies.map Prod.fst) ↔
      (k ∈ x.analysis.agencies.map Prod.fst ∨ k ∈ y.analysis.agencies.map Prod.fst) := by
    intro x y k
    rw [mem_dedupKeys, List.mem_append]
  refine ⟨?_, ?_, ?_, ?_, ?_⟩
  · show (b.analysis.word_count : Int) - (a.analysis.word_count : Int) =
      -((a.analysis.word_count : Int) - (b.analysis.word_count : Int))
    omega
  · intro k
    rw [agencies_diff_eq, agencies_diff_eq, lookupKey_mapKeys, lookupKey_mapKeys]
    by_cases h : k ∈ a.analysis.agencies.map Prod.fst ∨ k ∈ b.analysis.agencies.map Prod.fst
    · rw [if_pos ((hmem a b k).mpr h), if_pos ((hmem b a k).mpr h.symm)]
      rfl
    · rw [if_neg (fun hh => h ((hmem a b k).mp hh)),
        if_neg (fun hh => h (Or.symm ((hmem b a k).mp hh)))]
  · intro k v hv
    rw [agencies_diff_eq, lookupKey_mapKeys] at hv
    rw [agencies_diff_eq, lookupKey_mapKeys]
    by_cases h : k ∈ dedupKeys (a.analysis.agencies.map Prod.fst ++
        b.analysis.agencies.map Prod.fst)
    · rw [if_pos h] at hv
      have hv' : (getCount b.analysis.agencies k : Int) -
          (getCount a.analysis.agencies k : Int) = v := by
        injection hv
      rw [if_pos ((hmem b a k).mpr (Or.symm ((hmem a b k).mp h)))]
      refine congrArg some ?_
      omega
    · rw [if_neg h] at hv
      exact absurd hv (by simp)
  · show (a.analysis.word_count : Int) - (a.analysis.word_count : Int) = 0
    omega
  · intro k v hv
    rw [agencies_diff_eq, lookupKey_mapKeys] at hv
    by_cases h : k ∈ dedupKeys (a.analysis.agencies.map Prod.fst ++
        a.analysis.agencies.map Prod.fst)
    · rw [if_pos h] at hv
      have hv' : (getCount a.analysis.agencies k : Int) -
          (getCount a.analysis.agencies k : Int) = v := by
        injection hv
      omega
    · rw [if_neg h] at hv
      exact absurd hv (by simp)

/-- C4, witness: the spec's worked example — snapshot A with word count 100
and OMB = 2 against snapshot B with word count 120 and OMB = 5 gives a delta
of 20 and OMB delta 3, and the reversed comparison yields OMB delta -3 by the
negation law. -/
theorem c4_witness :
    (compare_two_snapshots
        ⟨strCodes "2022-01-01", strCodes "1", ⟨100, [(strCodes "OMB", 2)], []⟩⟩
        ⟨strCodes "2023-01-01", strCodes "1", ⟨120, [(strCodes "OMB", 5)], []⟩⟩).word_count_change
      = 20
    ∧ lookupKey (strCodes "OMB")
        (compare_two_snapshots
          ⟨strCodes "2023-01-01", strCodes "1", ⟨120, [(strCodes "OMB", 5)], []⟩⟩
          ⟨strCodes "2022-01-01", strCodes "1", ⟨100, [(strCodes "OMB", 2)], []⟩⟩).agencies_diff
      = some (-3) :=
  ⟨by decide,
   (c4_compare_antisymmetric
      ⟨strCodes "2022-01-01", strCodes "1", ⟨100, [(strCodes "OMB", 2)], []⟩⟩
      ⟨strCodes "2023-01-01", strCodes "1", ⟨120, [(strCodes "OMB", 5)], []⟩⟩).2.2.1
     (strCodes "OMB") 3 (by decide)⟩

/-- C7: the latest-snapshot-date selection fails — with the fetch-class error
carrying the message `No version data found for this title.` — exactly when
the provider's decoded version list is empty, and on a non-empty list it
returns the `date` field of the first element (treated as newest). -/
theorem c7_latest_snapshot_date :
    (∀ data : List VersionEntry,
        (∃ msg, fetch_latest_snapshot_date data = .error (.fetchErr msg)) ↔ data = [])
    ∧ (∀ (e : VersionEntry) (rest : List VersionEntry),
        fetch_latest_snapshot_date (e :: rest) = .ok e.date) := by
  constructor
  · intro data
    cases data with
    | nil =>
      refine ⟨fun _ => rfl, fun _ => ?_⟩
      exact ⟨strCodes "No version data found for this title.", rfl⟩
    | cons e rest =>
      constructor
      · rintro ⟨msg, hmsg⟩
        exact absurd hmsg (by simp [fetch_latest_snapshot_date])
      · intro h
        exact absurd h (by simp)
  · intro e rest
    rfl

/-- C7, witness: the empty list produces the fetch error, and a concrete
two-element list returns the first date. -/
theorem c7_witness :
    (∃ msg, fetch_latest_snapshot_date [] = .error (.fetchErr msg))
    ∧ fetch_latest_snapshot_date
        [⟨strCodes "2025-02-08"⟩, ⟨strCodes "2025-01-01"⟩] =
      .ok (strCodes "2025-02-08") :=
  ⟨(c7_latest_snapshot_date.1 []).mpr rfl,
   c7_latest_snapshot_date.2 ⟨strCodes "2025-02-08"⟩ [⟨strCodes "2025-01-01"⟩]⟩

/-- C6: if any stage of the analyze pipeline fails (fetch or markup parse —
the lexical analysis itself is total), the last-result slot keeps its prior
value and only an error is returned; the slot is overwritten exactly by a
successful run, and then it holds precisely the returned complete snapshot. -/
theorem c6_store_on_failure (fetchRes : Except PipeErr (List Nat))
    (parseRes : List Nat → Except PipeErr XmlNode)
    (store : Option Snapshot) (dateStr titleNum : List Nat) :
    (∀ e : PipeErr,
        (analyzeRoute fetchRes parseRes store dateStr titleNum).2 = .error e →
        (analyzeRoute fetchRes parseRes store dateStr titleNum).1 = store)
    ∧ (∀ snap : Snapshot,
        (analyzeRoute fetchRes parseRes store dateStr titleNum).2 = .ok snap →
        (analyzeRoute fetchRes parseRes store dateStr titleNum).1 = some snap) := by
  cases fetchRes with
  | error e =>
    refine ⟨fun e' _ => rfl, fun snap h => ?_⟩
    exact absurd h (by simp [analyzeRoute])
  | ok xml =>
    cases hp : parseRes xml with
    | error e =>
      refine ⟨fun e' _ => by simp [analyzeRoute, hp], fun snap h => ?_⟩
      simp [analyzeRoute, hp] at h
    | ok root =>
      refine ⟨fun e' h => ?_, fun snap h => ?_⟩
      · simp [analyzeRoute, hp] at h
      · simp only [analyzeRoute, hp] at h ⊢
        simp only [Except.ok.injEq] at h
        rw [h]

/-- C6, witness: a failing fetch leaves a concrete prior snapshot in place. -/
theorem c6_witness :
    (analyzeRoute (.error (.fetchErr (strCodes "boom")))
        (fun _ => .ok (.node [] [] []))
        (some ⟨strCodes "2025-01-01", strCodes "1", ⟨0, [], []⟩⟩)
        (strCodes "2025-01-01") (strCodes "1")).1 =
      some ⟨strCodes "2025-01-01", strCodes "1", ⟨0, [], []⟩⟩ :=
  (c6_store_on_failure (.error (.fetchErr (strCodes "boom")))
      (fun _ => .ok (.node [] [] []))
      (some ⟨strCodes "2025-01-01", strCodes "1", ⟨0, [], []⟩⟩)
      (strCodes "2025-01-01") (strCodes "1")).1
    (.fetchErr (strCodes "boom")) rfl

mutual

/-- The collected fragments never depend on any tail text. -/
theorem fragOne_eraseTails : ∀ n : XmlNode, fragOne (eraseTailsOne n) = fragOne n
  | .node text children _ => by
    rw [show eraseTailsOne (.node text children _) =
        .node text (eraseTailsList children) [] from rfl]
    rw [show fragOne (.node text (eraseTailsList children) []) =
        (if text = [] then [] else [stripWs text]) ++ fragList (eraseTailsList children) from rfl]
    rw [show fragOne (.node text children _) =
        (if text = [] then [] else [stripWs text]) ++ fragList children from rfl]
    rw [fragList_eraseTails children]

/-- The collected fragments of a forest never depend on any tail text. -/
theorem fragList_eraseTails :
    ∀ cs : List XmlNode, fragList (eraseTailsList cs) = fragList cs
  | [] => rfl
  | c :: cs => by
    rw [show eraseTailsList (c :: cs) = eraseTailsOne c :: eraseTailsList cs from rfl]
    rw [show fragList (eraseTailsOne c :: eraseTailsList cs) =
        fragOne (eraseTailsOne c) ++ fragList (eraseTailsList cs) from rfl]
    rw [fragOne_eraseTails c, fragList_eraseTails cs]
    rfl

end

/-- C10: extraction collects only each element's leading text — the plain
text of a document is unchanged when every tail text (character data between
a child's end tag and the next sibling) is erased; concretely,
`<a>Hello<b/>TAIL</a>` extracts to `Hello`, and leading texts are stripped
and space-joined (`<root><a>Hello</a><b>  World  </b></root>` gives
`Hello World`). -/
theorem c10_tail_text_omitted :
    (∀ root : XmlNode, parse_ecfr_xml (eraseTailsOne root) = parse_ecfr_xml root)
    ∧ parse_ecfr_xml
        (.node (strCodes "Hello") [.node [] [] (strCodes "TAIL")] []) =
      strCodes "Hello"
    ∧ parse_ecfr_xml
        (.node [] [.node (strCodes "Hello") [] [],
                   .node (strCodes "  World  ") [] []] []) =
      strCodes "Hello World" := by
  refine ⟨?_, by decide, by decide⟩
  intro root
  rw [parse_ecfr_xml, parse_ecfr_xml, fragOne_eraseTails root]

end EcfrApp
